import Mathlib

/-!
Verification of the con-queso chat-bot plugins.

Shallow embedding of the state and the operations of the plugins
(SortingHat, ActivityTracker, LowEngagement, AdvancedRoleRewards, Shun)
in Lean 4, with theorems settling the behavioural claims about them.

Conventions:
  * timestamps (Python float seconds) are rationals (ℚ);
  * user, guild, role and channel ids are naturals;
  * Python dicts keyed by ids are either functions out of ℕ (for the
    in-memory per-guild defaultdicts) or association lists (for the
    JSON-backed config dicts);
  * message content (Python str) is a list of characters.
-/

namespace ConQueso

/-! ## SortingHat (src/sortinghat/sortinghat.py)

In-memory per-guild state of the cog: `guild_queues` is the
defaultdict(list) of pending member ids, `last_sort_times` the
defaultdict(float) of the last actual sort per guild. -/

namespace SortingHat

structure State where
  guild_queues : Nat → List Nat
  last_sort_times : Nat → ℚ

/-- Fresh cog state: both defaultdicts are empty (list default `[]`,
float default `0.0`). -/
def initState : State := ⟨fun _ => [], fun _ => 0⟩

/-- SortingHat.enqueue_member: append the member id to the guild's queue
unless it is already queued. (The call to `_ensure_processor_running` only
spawns the processing task and changes no queue state.) -/
def enqueue_member (st : State) (g m : Nat) : State :=
  if m ∈ st.guild_queues g then st
  else
    { st with
      guild_queues := fun g2 =>
        if g2 = g then st.guild_queues g ++ [m] else st.guild_queues g2 }

/-- A sequence of enqueue_member calls for one guild, in list order. -/
def enqueue_all (st : State) (g : Nat) (ms : List Nat) : State :=
  ms.foldl (fun s m => enqueue_member s g m) st

/-- The subsequence of `ms` that `enqueue_member` actually appends when the
ids in `ms` are enqueued in order onto a queue currently holding `queue`:
an id is appended at its first occurrence not already present. -/
def appended_order (queue : List Nat) : List Nat → List Nat
  | [] => []
  | m :: ms =>
      if m ∈ queue then appended_order queue ms
      else m :: appended_order (queue ++ [m]) ms

/-- What `_process_queue` finds when it dequeues a member id:
`guild.get_member` returned None, the member already has a house role, or
the member still needs sorting. -/
inductive MemberStatus
  | gone
  | hasHouse
  | needsSort

/-- Observable events of the `_process_queue` loop: each iteration pops
(dequeues) the head of the queue at some time, and possibly performs the
actual sort (`sort_member` plus the update of `last_sort_times`). -/
inductive Event
  | dequeue (member : Nat) (time : ℚ)
  | sortAct (member : Nat) (time : ℚ)

/-- The rate-limit prologue of one `_process_queue` iteration: with
`elapsed = now - lastSort`, if `elapsed < 3600` the loop sleeps
`3600 - elapsed` seconds, so the iteration acts at clock
`lastSort + 3600`; otherwise it acts immediately at `now`. -/
def act_time (lastSort now : ℚ) : ℚ :=
  if now - lastSort < 3600 then lastSort + 3600 else now

/-- SortingHat._process_queue, for a single guild, as an event trace over
model time. Arguments after the queue: the guild's `last_sort_times` entry
and the current wall-clock time `now`. One loop iteration:

  * rate limit: sleep as described at `act_time`;
  * pop the head of the queue;
  * if the member is present and has no house yet, sort them and set the
    guild's `last_sort_times` to the current time; otherwise skip without
    touching `last_sort_times`.

Sorting itself is modelled as instantaneous. -/
def process_queue (status : Nat → MemberStatus) :
    List Nat → ℚ → ℚ → List Event
  | [], _, _ => []
  | m :: rest, lastSort, now =>
      match status m with
      | .needsSort =>
          .dequeue m (act_time lastSort now) ::
            .sortAct m (act_time lastSort now) ::
              process_queue status rest (act_time lastSort now)
                (act_time lastSort now)
      | _ =>
          .dequeue m (act_time lastSort now) ::
            process_queue status rest lastSort (act_time lastSort now)

/-- The member ids in dequeue order of a trace. -/
def dequeuedIds (evs : List Event) : List Nat :=
  evs.filterMap fun e =>
    match e with
    | .dequeue m _ => some m
    | _ => none

/-- The times of the dequeue events of a trace. -/
def dequeueTimes (evs : List Event) : List ℚ :=
  evs.filterMap fun e =>
    match e with
    | .dequeue _ t => some t
    | _ => none

/-- The times of the actual sort events of a trace. -/
def sortTimes (evs : List Event) : List ℚ :=
  evs.filterMap fun e =>
    match e with
    | .sortAct _ t => some t
    | _ => none

/-- A single iteration of the `_process_queue` loop on the full cog state
(used for the frame and distinctness claims): pop the head of guild `g`'s
queue and, if the member needs sorting, update `g`'s last sort time. -/
def process_one (st : State) (g : Nat) (status : Nat → MemberStatus)
    (now : ℚ) : State :=
  match st.guild_queues g with
  | [] => st
  | m :: rest =>
      let actTime := act_time (st.last_sort_times g) now
      let st2 :=
        { st with
          guild_queues := fun g2 =>
            if g2 = g then rest else st.guild_queues g2 }
      match status m with
      | .needsSort =>
          { st2 with
            last_sort_times := fun g2 =>
              if g2 = g then actTime else st.last_sort_times g2 }
      | _ => st2

/-- Member status map of the concrete C2 counterexample run: member 1
already has a house, every other member still needs sorting. -/
def cexStatus : Nat → MemberStatus :=
  fun m => if m = 1 then MemberStatus.hasHouse else MemberStatus.needsSort

/-- Concrete state used by the C7 witness: guild 2 has member 5 queued
and a nonzero last sort time, guild 1 is untouched. -/
def frameSt : State :=
  { guild_queues := fun g => if g = 2 then [5] else [],
    last_sort_times := fun g => if g = 2 then 100 else 0 }

end SortingHat

/-! ## Character-level model of the Python regex operations shared by
ActivityTracker.is_emoji_only and LowEngagement.is_emoji_only.

Both cogs delete custom-emoji tags with `re.sub(r"<a?:\w+:\d+>", "", s)`,
delete further characters by a character class, and strip whitespace.
The `\w` and `\d` classes are modelled on their ASCII subsets
(`[A-Za-z0-9_]` and `[0-9]`), which is exact for Discord emoji tags, and
`str.strip()` on the four ASCII whitespace characters. -/

namespace PyRe

/-- ASCII word character, the `\w` class inside a custom-emoji tag. -/
def isWordCharA (c : Char) : Bool := c.isAlphanum || c = '_'

/-- After the opening `<` of the pattern `<a?:\w+:\d+>`: consume the
optional `a` and the mandatory first `:` (with backtracking, `a` is kept
only when a `:` follows it). -/
def afterOpen : List Char → Option (List Char)
  | 'a' :: ':' :: r => some r
  | ':' :: r => some r
  | _ => none

/-- Try to match `<a?:\w+:\d+>` at the start of the list; on a match
return the characters after it. Greedy matching of `\w+` and `\d+` is
maximal munch here because `:` is not in `\w` and `>` is not in `\d`. -/
def matchCustomEmoji : List Char → Option (List Char)
  | '<' :: rest =>
      match afterOpen rest with
      | none => none
      | some r1 =>
          if (r1.takeWhile isWordCharA).isEmpty then none
          else
            match r1.dropWhile isWordCharA with
            | ':' :: r3 =>
                if (r3.takeWhile Char.isDigit).isEmpty then none
                else
                  match r3.dropWhile Char.isDigit with
                  | '>' :: r5 => some r5
                  | _ => none
            | _ => none
  | _ => none

/-- One `re.sub(custom_emoji_re, "", s)` pass: scan left to right and
delete each leftmost non-overlapping match. The fuel argument (the input
length suffices, every match consumes at least one character) makes the
recursion structural so that concrete inputs evaluate by `decide`. -/
def subCustomEmojiAux : Nat → List Char → List Char
  | 0, l => l
  | _ + 1, [] => []
  | fuel + 1, c :: rest =>
      match matchCustomEmoji (c :: rest) with
      | some r => subCustomEmojiAux fuel r
      | none => c :: subCustomEmojiAux fuel rest

/-- Delete every custom-emoji tag `<a?:\w+:\d+>` from the string. -/
def subCustomEmoji (l : List Char) : List Char := subCustomEmojiAux l.length l

/-- Python str.strip(): drop whitespace from both ends. -/
def pyStrip (l : List Char) : List Char :=
  ((l.dropWhile Char.isWhitespace).reverse.dropWhile Char.isWhitespace).reverse

end PyRe

/-! ## ActivityTracker (src/activitytracker/activitytracker.py) -/

namespace ActivityTracker

/-- The three policing actions accepted by the rule commands. -/
inductive PolicingActionKind
  | kick
  | warn
  | mention
deriving DecidableEq

/-- One policing rule dict: level cap, inactivity days, action, cooldown
days for warn/mention. -/
structure PolicingRule where
  level : Int
  days : Int
  action : PolicingActionKind
  cooldown : Int
deriving DecidableEq

/-- The comparator realised by
`applicable_rules.sort(key=lambda x: (x['days'], -x['level']), reverse=True)`:
`a` may sit before `b` when its key `(days, -level)` is lexicographically
at least `b`'s. -/
def ruleSortLE (a b : PolicingRule) : Bool :=
  decide (b.days < a.days ∨ (a.days = b.days ∧ a.level ≤ b.level))

/-- ActivityTracker._get_applicable_rule: keep the rules whose level cap
admits the user, sort them by days descending (ties: level ascending,
stably), and return the first whose days requirement the user's
inactivity meets. `mergeSort` is a stable sort, like Python's. -/
def get_applicable_rule (rules : List PolicingRule) (user_level : Int)
    (days_inactive : ℚ) : Option PolicingRule :=
  let applicable := rules.filter fun r => decide (user_level ≤ r.level)
  if applicable.isEmpty then none
  else
    (applicable.mergeSort ruleSortLE).find? fun r =>
      decide ((r.days : ℚ) ≤ days_inactive)

/-- The per-guild configuration dict (`default_guild`). -/
structure GuildConf where
  msg_threshold : Int
  msg_window_hours : Int
  min_chars : Int
  ignore_commands : Bool
  ignored_channels : List Nat
  voice_min_minutes : Int
  voice_min_users : Int
  inactivity_days : Int
  preview_mode : Bool
  policing_rules : List PolicingRule
  report_channel : Option Nat

/-- The per-member configuration dict (`default_member`). -/
structure MemberState where
  last_active : Option ℚ
  message_history : List ℚ
  voice_start : Option ℚ
  last_policed : Option ℚ

/-- The fields of a Discord message that on_message reads. -/
structure Message where
  guild : Option Nat
  author_bot : Bool
  channel_id : Nat
  content : List Char

/-- ActivityTracker.is_emoji_only: delete custom-emoji tags, delete the
astral-plane characters `[\U00010000-\U0010ffff]`, strip whitespace, and
test for emptiness. -/
def is_emoji_only (content : List Char) : Bool :=
  (PyRe.pyStrip
    ((PyRe.subCustomEmoji content).filter fun c =>
      decide (c.toNat < 0x10000))).isEmpty

/-- message.content.startswith(tuple(prefixes)). -/
def startsWithAny (content : List Char) (ps : List (List Char)) : Bool :=
  ps.any fun p => p.isPrefixOf content

/-- ActivityTracker.on_message, restricted to its effect on the author's
member record. Guard cascade as in the code: not a guild message or a bot
author, ignored channel, command invocation (when ignore_commands), too
short, or emoji-only messages change nothing. Otherwise the current
timestamp is appended to message_history, entries at or before
`now - msg_window_hours*3600` are dropped, and last_active is set to `now`
when at least msg_threshold entries remain. -/
def on_message (conf : GuildConf) (ps : List (List Char)) (msg : Message)
    (now : ℚ) (st : MemberState) : MemberState :=
  if msg.guild.isNone || msg.author_bot then st
  else if msg.channel_id ∈ conf.ignored_channels then st
  else if conf.ignore_commands && startsWithAny msg.content ps then st
  else if (msg.content.length : Int) < conf.min_chars then st
  else if is_emoji_only msg.content then st
  else
    let history :=
      (st.message_history ++ [now]).filter fun t =>
        decide (now - (conf.msg_window_hours : ℚ) * 3600 < t)
    { st with
      message_history := history,
      last_active :=
        if conf.msg_threshold ≤ (history.length : Int) then some now
        else st.last_active }

/-- The fields of a guild member that run_policing reads. The level and
hibernation flag stand for the answers of the optional LevelUp and
Hibernate cogs. -/
structure GuildMember where
  mid : Nat
  bot : Bool
  hibernating : Bool
  joined_at : ℚ
  level : Int
  last_active : Option ℚ
  last_policed : Option ℚ

/-- The kind of report entry run_policing appends for a member. -/
inductive ReportTag
  | onCooldown
  | pending
  | executed
deriving DecidableEq

/-- The observable outcome of one run_policing pass over a guild: the
report entries, the policing actions handed to
`_execute_policing_action`, and the members whose last_policed is set. -/
structure PolicingOutcome where
  entries : List (Nat × ReportTag)
  actions : List (Nat × PolicingActionKind)
  policed_updates : List Nat

def emptyOutcome : PolicingOutcome := ⟨[], [], []⟩

/-- The fallback `if not last_active: last_active = joined_at.timestamp()`:
None and the falsy 0.0 fall back to the join date. -/
def effective_last_active (m : GuildMember) : ℚ :=
  match m.last_active with
  | some t => if t = 0 then m.joined_at else t
  | none => m.joined_at

/-- days_since_policed; `none` stands for `float('inf')` (last_policed
None or falsy 0.0). -/
def days_since_policed (m : GuildMember) (now : ℚ) : Option ℚ :=
  match m.last_policed with
  | some t => if t = 0 then none else some ((now - t) / 86400)
  | none => none

/-- The member loop body of run_policing. -/
def police_member (conf : GuildConf) (now : ℚ) (acc : PolicingOutcome)
    (m : GuildMember) : PolicingOutcome :=
  if m.bot || m.hibernating then acc
  else
    match get_applicable_rule conf.policing_rules m.level
        ((now - effective_last_active m) / 86400) with
    | none => acc
    | some rule =>
        let warnMention : Bool :=
          rule.action == .warn || rule.action == .mention
        let onCd : Bool :=
          warnMention &&
            (match days_since_policed m now with
             | some d => decide (d < (rule.cooldown : ℚ))
             | none => false)
        if onCd then
          { acc with entries := acc.entries ++ [(m.mid, ReportTag.onCooldown)] }
        else if conf.preview_mode then
          { acc with entries := acc.entries ++ [(m.mid, ReportTag.pending)] }
        else
          { entries := acc.entries ++ [(m.mid, ReportTag.executed)],
            actions := acc.actions ++ [(m.mid, rule.action)],
            policed_updates :=
              acc.policed_updates ++ (if warnMention then [m.mid] else []) }

/-- ActivityTracker.run_policing restricted to a single guild. `manual`
says whether a manual report context for this guild was passed;
`rce` whether `guild.get_channel(conf["report_channel"])` resolved. In
preview mode without a manual context the guild is skipped outright
(`continue`); the second skip mirrors the dead check on the report
channel; otherwise the member loop runs. -/
def run_policing_guild (conf : GuildConf) (members : List GuildMember)
    (now : ℚ) (manual : Bool) (rce : Bool) : PolicingOutcome :=
  if conf.preview_mode && !manual then emptyOutcome
  else if !manual && conf.preview_mode && !rce then emptyOutcome
  else members.foldl (police_member conf now) emptyOutcome

/-- Concrete guild configuration for witnesses: the registered defaults
with a message threshold of 2. -/
def confW : GuildConf :=
  { msg_threshold := 2, msg_window_hours := 72, min_chars := 1,
    ignore_commands := true, ignored_channels := [], voice_min_minutes := 20,
    voice_min_users := 2, inactivity_days := 30, preview_mode := true,
    policing_rules := [], report_channel := none }

/-- Concrete command marker list for witnesses (a single marker `!`). -/
def marksW : List (List Char) := [['!']]

/-- Concrete qualifying message for the C4 witness. -/
def msgW : Message :=
  { guild := some 1, author_bot := false, channel_id := 10,
    content := ['h', 'i'] }

/-- Concrete member record for the C4 witness: one old history entry. -/
def stW : MemberState :=
  { last_active := none, message_history := [50], voice_start := none,
    last_policed := none }

/-- Concrete policing configuration for the C8 witness: preview mode with
one warn rule (level cap 5, 30 days, cooldown 7). -/
def confP : GuildConf :=
  { confW with
    preview_mode := true,
    policing_rules :=
      [{ level := 5, days := 30, action := .warn, cooldown := 7 }] }

/-- Concrete member for the C8 witness, 60 days inactive at time
5184000. -/
def memW : GuildMember :=
  { mid := 3, bot := false, hibernating := false, joined_at := 0,
    level := 1, last_active := none, last_policed := none }

end ActivityTracker

/-! ## LowEngagement (src/lowengagement/lowengagement.py) -/

namespace LowEngagement

/-- The per-guild configuration dict (`default_guild`); the warn texts do
not influence the tracked state. -/
structure GuildConf where
  enabled : Bool
  emoji_streak_limit : Nat
  time_window_days : Nat
  max_level_ignored : Int
  ignored_channels : List Nat
  ignored_roles : List Nat

/-- The per-member configuration dict (`default_member`). -/
structure MemberState where
  streak : Nat
  last_emoji_ts : ℚ
  is_flagged : Bool

/-- The fields of a message that LowEngagement.on_message reads; the
level and hibernation flag stand for the optional LevelUp and Hibernate
cog answers. -/
structure Message where
  guild : Option Nat
  author_bot : Bool
  author_roles : List Nat
  author_level : Int
  author_hibernating : Bool
  channel_id : Nat
  content : List Char

/-- The unicode_emoji_regex character class of LowEngagement. -/
def unicodeEmojiChar (c : Char) : Bool :=
  (0x1f000 ≤ c.toNat && c.toNat ≤ 0x1faff) ||
  (0x2000 ≤ c.toNat && c.toNat ≤ 0x2bff) ||
  (0x2600 ≤ c.toNat && c.toNat ≤ 0x27ff) ||
  (0xfe00 ≤ c.toNat && c.toNat ≤ 0xfe0f) ||
  (0x1f900 ≤ c.toNat && c.toNat ≤ 0x1f9ff)

/-- LowEngagement.is_emoji_only: empty content is not emoji-only;
otherwise delete custom-emoji tags, delete the class characters, strip
whitespace, and test for emptiness. -/
def is_emoji_only (content : List Char) : Bool :=
  if content.isEmpty then false
  else
    (PyRe.pyStrip
      ((PyRe.subCustomEmoji content).filter fun c =>
        !unicodeEmojiChar c)).isEmpty

/-- LowEngagement.on_message, restricted to its effect on the author's
member record; the returned Bool says whether `trigger_warning` was
called. Guard cascade as in the code: bot author, non-guild message,
disabled cog, hibernating author, ignored role, ignored channel. A
non-emoji-only message resets the streak; an emoji-only one is dropped
for a high-level author, otherwise it restarts the streak at 1 when the
time window has passed and increments it when not, records the message
time, and on reaching the streak limit resets the streak to 0 and
warns. -/
def on_message (conf : GuildConf) (msg : Message) (now : ℚ)
    (st : MemberState) : MemberState × Bool :=
  if msg.author_bot then (st, false)
  else if msg.guild.isNone then (st, false)
  else if !conf.enabled then (st, false)
  else if msg.author_hibernating then (st, false)
  else if msg.author_roles.any (fun r => conf.ignored_roles.contains r) then
    (st, false)
  else if msg.channel_id ∈ conf.ignored_channels then (st, false)
  else if !is_emoji_only msg.content then ({ st with streak := 0 }, false)
  else if conf.max_level_ignored < msg.author_level ∧
      conf.max_level_ignored ≠ -1 then
    (st, false)
  else
    let streak1 :=
      if (conf.time_window_days : ℚ) * 86400 < now - st.last_emoji_ts then 1
      else st.streak + 1
    if conf.emoji_streak_limit ≤ streak1 then
      ({ st with streak := 0, last_emoji_ts := now }, true)
    else ({ st with streak := streak1, last_emoji_ts := now }, false)

/-- Concrete guild configuration for the C5 witness (the registered
defaults, enabled). -/
def confL : GuildConf :=
  { enabled := true, emoji_streak_limit := 5, time_window_days := 1,
    max_level_ignored := 10, ignored_channels := [], ignored_roles := [] }

/-- Concrete emoji-only message (a single `✨`, U+2728) for the C5
witness. -/
def msgL : Message :=
  { guild := some 1, author_bot := false, author_roles := [],
    author_level := 0, author_hibernating := false, channel_id := 9,
    content := ['✨'] }

/-- Concrete member record for the C5 witness: a running streak of 1,
last emoji message at time 1000. -/
def stL : MemberState :=
  { streak := 1, last_emoji_ts := 1000, is_flagged := false }

end LowEngagement

/-! ## AdvancedRoleRewards (src/advancedrolerewards/advancedrolerewards.py) -/

namespace AdvancedRoleRewards

/-- The start timestamp get_tenure_days computes with: the stored
start_date when it is truthy (`if start_ts:` — not None and not the falsy
0.0), otherwise the join date; None when neither exists. -/
def tenure_start (start_date joined_at : Option ℚ) : Option ℚ :=
  match start_date with
  | some ts => if ts = 0 then joined_at else some ts
  | none => joined_at

/-- AdvancedRoleRewards.get_tenure_days: whole days (timedelta.days, a
floor) from the tenure start to now, clamped at 0; 0 when no start date
exists at all. -/
def get_tenure_days (start_date joined_at : Option ℚ) (now : ℚ) : Int :=
  match tenure_start start_date joined_at with
  | none => 0
  | some s => max 0 (Int.floor ((now - s) / 86400))

/-- Tenure as claim C6 words it, for comparison with the code: computed
from the stored start_date timestamp whenever it is set (also when the
stored timestamp is 0.0), otherwise from the join date. -/
def claim_tenure_days (start_date joined_at : Option ℚ) (now : ℚ) : Int :=
  match (match start_date with
         | some ts => some ts
         | none => joined_at) with
  | none => 0
  | some s => max 0 (Int.floor ((now - s) / 86400))

/-- One entry of settings["days_rewards"]. -/
structure DaysReward where
  days : Int
  role_id : Nat

/-- The body of the days-rewards loop of process_member_rewards, acting
on the (to_add, to_remove) accumulator: when the role still exists, the
member's tenure meets the days threshold, and the member does not already
have the role, queue the role for adding; to_remove is never touched. -/
def days_reward_step (role_exists : Nat → Bool) (member_roles : List Nat)
    (days : Int) (acc : List Nat × List Nat) (r : DaysReward) :
    List Nat × List Nat :=
  if role_exists r.role_id then
    if r.days ≤ days then
      if !(member_roles.contains r.role_id) then
        (acc.1 ++ [r.role_id], acc.2)
      else acc
    else acc
  else acc

/-- The days-rewards section of process_member_rewards: fold the loop
body over settings["days_rewards"], starting from empty to_add and
to_remove lists. -/
def process_days_rewards (rewards : List DaysReward)
    (role_exists : Nat → Bool) (member_roles : List Nat) (days : Int) :
    List Nat × List Nat :=
  rewards.foldl (days_reward_step role_exists member_roles days) ([], [])

end AdvancedRoleRewards

/-! ## Shun (src/shun/shun.py)

The per-guild `shuns` config dict `{target_id: {shunner_id: timestamp}}`
is modelled as an association list of association lists, with the usual
dict invariant of pairwise-distinct keys not needed by the theorems:
lookups read the first matching entry, like a dict. -/

namespace Shun

/-- Dict lookup: the value of the first entry with the key. -/
def dictGet {β : Type} : List (Nat × β) → Nat → Option β
  | [], _ => none
  | p :: t, k => if p.1 = k then some p.2 else dictGet t k

/-- Dict key deletion (`del m[k]` / `m.pop(k)`). -/
def dictDel {β : Type} : List (Nat × β) → Nat → List (Nat × β)
  | [], _ => []
  | p :: t, k => if p.1 = k then dictDel t k else p :: dictDel t k

/-- Dict value update for an existing key (`m[k] = v`). -/
def dictUpd {β : Type} : List (Nat × β) → Nat → β → List (Nat × β)
  | [], _, _ => []
  | p :: t, k, v =>
      if p.1 = k then (p.1, v) :: dictUpd t k v else p :: dictUpd t k v

/-- The outcome of Shun.unshun on a guild's shuns dict: whether it
succeeded (success false stands for the "You are not shunning ..." error
reply), the resulting dict, and the popped shun timestamp. -/
structure UnshunResult where
  success : Bool
  shuns : List (Nat × List (Nat × ℚ))
  shun_ts : Option ℚ

/-- Shun.unshun on the guild's shuns dict: error when the invoking author
has no recorded shun on the target; otherwise pop the author's entry from
the target's inner dict and delete the target's key when the inner dict
becomes empty. -/
def unshun (shuns : List (Nat × List (Nat × ℚ))) (author target : Nat) :
    UnshunResult :=
  match dictGet shuns target with
  | none => ⟨false, shuns, none⟩
  | some inner =>
      match dictGet inner author with
      | none => ⟨false, shuns, none⟩
      | some ts =>
          let inner2 := dictDel inner author
          ⟨true,
            if inner2.isEmpty then dictDel shuns target
            else dictUpd shuns target inner2,
            some ts⟩

/-- The recorded shun timestamp of `author` on `target`. -/
def lookup_shun (shuns : List (Nat × List (Nat × ℚ)))
    (target author : Nat) : Option ℚ :=
  (dictGet shuns target).bind fun inner => dictGet inner author

end Shun

end ConQueso

namespace ConQueso.SortingHat

/-! ### SortingHat lemmas -/

theorem enqueue_all_queue (g : Nat) (ms : List Nat) (st : State) :
    (enqueue_all st g ms).guild_queues g =
      st.guild_queues g ++ appended_order (st.guild_queues g) ms := by
  induction ms generalizing st with
  | nil => simp [enqueue_all, appended_order]
  | cons m ms ih =>
      by_cases hm : m ∈ st.guild_queues g
      · have h1 : enqueue_member st g m = st := by
          simp [enqueue_member, hm]
        simpa [enqueue_all, h1, appended_order, hm] using ih st
      · have h1 : (enqueue_member st g m).guild_queues g =
            st.guild_queues g ++ [m] := by
          simp [enqueue_member, hm]
        have h2 := ih (enqueue_member st g m)
        simp only [enqueue_all, List.foldl_cons] at h2 ⊢
        rw [h2, h1]
        rw [appended_order]
        simp [hm]

theorem appended_order_nodup :
    ∀ (ms queue : List Nat), ms.Nodup → (∀ x ∈ ms, x ∉ queue) →
      appended_order queue ms = ms := by
  intro ms
  induction ms with
  | nil => intro queue _ _; simp [appended_order]
  | cons m ms ih =>
      intro queue hn hq
      have hm : m ∉ queue := hq m (by simp)
      rw [appended_order, if_neg hm]
      have hn2 : ms.Nodup := (List.nodup_cons.mp hn).2
      have hq2 : ∀ x ∈ ms, x ∉ queue ++ [m] := by
        intro x hx
        simp only [List.mem_append, List.mem_singleton]
        rintro (h | rfl)
        · exact hq x (by simp [hx]) h
        · exact (List.nodup_cons.mp hn).1 hx
      rw [ih (queue ++ [m]) hn2 hq2]

theorem dequeuedIds_cons_dequeue (m : Nat) (t : ℚ) (evs : List Event) :
    dequeuedIds (.dequeue m t :: evs) = m :: dequeuedIds evs := by
  simp [dequeuedIds]

theorem dequeuedIds_cons_sortAct (m : Nat) (t : ℚ) (evs : List Event) :
    dequeuedIds (.sortAct m t :: evs) = dequeuedIds evs := by
  simp [dequeuedIds]

theorem sortTimes_cons_dequeue (m : Nat) (t : ℚ) (evs : List Event) :
    sortTimes (.dequeue m t :: evs) = sortTimes evs := by
  simp [sortTimes]

theorem sortTimes_cons_sortAct (m : Nat) (t : ℚ) (evs : List Event) :
    sortTimes (.sortAct m t :: evs) = t :: sortTimes evs := by
  simp [sortTimes]

theorem dequeuedIds_process_queue (status : Nat → MemberStatus) :
    ∀ (q : List Nat) (lastSort now : ℚ),
      dequeuedIds (process_queue status q lastSort now) = q := by
  intro q
  induction q with
  | nil => intro lastSort now; simp [process_queue, dequeuedIds]
  | cons m rest ih =>
      intro lastSort now
      rw [process_queue]
      cases status m <;>
        simp only [dequeuedIds_cons_dequeue, dequeuedIds_cons_sortAct, ih]

theorem le_act_time (lastSort now : ℚ) :
    lastSort + 3600 ≤ act_time lastSort now := by
  rw [act_time]
  split <;> linarith

theorem sortTimes_process_queue_bound (status : Nat → MemberStatus) :
    ∀ (q : List Nat) (lastSort now : ℚ),
      (∀ t ∈ sortTimes (process_queue status q lastSort now),
          lastSort + 3600 ≤ t) ∧
        (sortTimes (process_queue status q lastSort now)).Chain'
          (fun t1 t2 => t1 + 3600 ≤ t2) := by
  intro q
  induction q with
  | nil => intro lastSort now; simp [process_queue, sortTimes]
  | cons m rest ih =>
      intro lastSort now
      rw [process_queue]
      have hact := le_act_time lastSort now
      cases status m
      case needsSort =>
        simp only [sortTimes_cons_dequeue, sortTimes_cons_sortAct]
        obtain ⟨hb, hc⟩ := ih (act_time lastSort now) (act_time lastSort now)
        constructor
        · intro t ht
          simp only [List.mem_cons] at ht
          rcases ht with rfl | ht
          · exact hact
          · have := hb t ht
            linarith
        · rw [List.chain'_cons']
          refine ⟨?_, hc⟩
          intro y hy
          exact hb y (List.mem_of_mem_head? hy)
      all_goals
        simp only [sortTimes_cons_dequeue]
        exact ih lastSort (act_time lastSort now)

theorem dequeueTimes_cons_dequeue (m : Nat) (t : ℚ) (evs : List Event) :
    dequeueTimes (.dequeue m t :: evs) = t :: dequeueTimes evs := by
  simp [dequeueTimes]

theorem dequeueTimes_cons_sortAct (m : Nat) (t : ℚ) (evs : List Event) :
    dequeueTimes (.sortAct m t :: evs) = dequeueTimes evs := by
  simp [dequeueTimes]

/-! ### SortingHat claim theorems -/

/-- Claim C1: for every guild, the SortingHat queue is a FIFO.
`_process_queue` dequeues member ids in exactly the order `enqueue_member`
appended them (`appended_order [] ms`, the first occurrences of the
enqueued ids); in particular, for pairwise-distinct enqueued ids the
dequeue order is exactly the enqueue order. -/
theorem sortinghat_queue_fifo (g : Nat) (status : Nat → MemberStatus)
    (lastSort now : ℚ) (ms : List Nat) :
    dequeuedIds
        (process_queue status ((enqueue_all initState g ms).guild_queues g)
          lastSort now) =
      appended_order [] ms ∧
    (ms.Nodup →
      dequeuedIds
          (process_queue status
            ((enqueue_all initState g ms).guild_queues g) lastSort now) =
        ms) := by
  have hq : (enqueue_all initState g ms).guild_queues g =
      appended_order [] ms := by
    have := enqueue_all_queue g ms initState
    simpa [initState] using this
  constructor
  · rw [dequeuedIds_process_queue, hq]
  · intro hn
    rw [dequeuedIds_process_queue, hq,
      appended_order_nodup ms [] hn (by simp)]

/-- Claim C2 counterexample: it is not true that at least 3600 seconds
elapse between the dequeues of two consecutive queue items. Concretely,
with the last sort an hour or more in the past, a queued member who
already has a house (member 1 under `cexStatus`) is dequeued and the next
member is dequeued immediately after, at the same model time 4000. -/
theorem sortinghat_interval_counterexample :
    ¬ (dequeueTimes (process_queue cexStatus [1, 2] 0 4000)).Chain'
        (fun t1 t2 => t1 + 3600 ≤ t2) := by
  have h1 : process_queue cexStatus [1, 2] 0 4000 =
      [.dequeue 1 4000, .dequeue 2 4000, .sortAct 2 4000] := by
    norm_num [process_queue, cexStatus, act_time]
  rw [h1, dequeueTimes_cons_dequeue, dequeueTimes_cons_dequeue,
    dequeueTimes_cons_sortAct]
  simp only [dequeueTimes, List.filterMap_nil, List.chain'_cons,
    List.chain'_singleton, and_true]
  norm_num

/-- Claim C2 (amended): the SortingHat queue is rate limited per actual
sort, not per dequeued item: between any two consecutive queue items whose
handling actually sorts the member, at least 3600 seconds elapse
(consecutively dequeued items that are skipped because the member left or
already has a house are processed without delay, and do not update the
guild's last sort time). -/
theorem sortinghat_sort_interval (status : Nat → MemberStatus)
    (q : List Nat) (lastSort now : ℚ) :
    (sortTimes (process_queue status q lastSort now)).Chain'
      (fun t1 t2 => t1 + 3600 ≤ t2) :=
  (sortTimes_process_queue_bound status q lastSort now).2

/-- Claim C7: SortingHat state is per-guild. Enqueueing a member for guild
`g`, or one processing iteration of guild `g`'s queue, leaves every other
guild's queue and last-sort timestamp unchanged. -/
theorem sortinghat_per_guild_frame (st : State) (g g2 m : Nat)
    (status : Nat → MemberStatus) (now : ℚ) (h : g2 ≠ g) :
    (enqueue_member st g m).guild_queues g2 = st.guild_queues g2 ∧
    (enqueue_member st g m).last_sort_times g2 = st.last_sort_times g2 ∧
    (process_one st g status now).guild_queues g2 = st.guild_queues g2 ∧
    (process_one st g status now).last_sort_times g2 =
      st.last_sort_times g2 := by
  refine ⟨?_, ?_, ?_, ?_⟩
  · by_cases hm : m ∈ st.guild_queues g <;> simp [enqueue_member, hm, h]
  · by_cases hm : m ∈ st.guild_queues g <;> simp [enqueue_member, hm, h]
  · cases hq : st.guild_queues g with
    | nil => simp [process_one, hq]
    | cons hd tl => cases hstat : status hd <;> simp [process_one, hq, hstat, h]
  · cases hq : st.guild_queues g with
    | nil => simp [process_one, hq]
    | cons hd tl => cases hstat : status hd <;> simp [process_one, hq, hstat, h]

/-- Witness for the C7 frame theorem at a concrete state: guild 1 is
unaffected by an enqueue into guild 2 and by a processing iteration of
guild 2's queue. -/
theorem sortinghat_per_guild_frame_witness :
    (enqueue_member frameSt 2 7).guild_queues 1 = frameSt.guild_queues 1 ∧
    (enqueue_member frameSt 2 7).last_sort_times 1 =
      frameSt.last_sort_times 1 ∧
    (process_one frameSt 2 (fun _ => MemberStatus.needsSort)
        5000).guild_queues 1 =
      frameSt.guild_queues 1 ∧
    (process_one frameSt 2 (fun _ => MemberStatus.needsSort)
        5000).last_sort_times 1 =
      frameSt.last_sort_times 1 :=
  sortinghat_per_guild_frame frameSt 2 1 7 (fun _ => MemberStatus.needsSort)
    5000 (by decide)

/-- Claim C9: SortingHat.enqueue_member is idempotent on a queued id, and
both enqueueing and queue processing preserve pairwise-distinctness of
every guild queue. -/
theorem sortinghat_enqueue_distinct (st : State) (g g2 m : Nat)
    (status : Nat → MemberStatus) (now : ℚ) :
    (m ∈ st.guild_queues g → enqueue_member st g m = st) ∧
    ((st.guild_queues g2).Nodup →
      ((enqueue_member st g m).guild_queues g2).Nodup) ∧
    ((st.guild_queues g2).Nodup →
      ((process_one st g status now).guild_queues g2).Nodup) := by
  refine ⟨?_, ?_, ?_⟩
  · intro hm
    simp [enqueue_member, hm]
  · intro hn
    by_cases hm : m ∈ st.guild_queues g
    · simp [enqueue_member, hm, hn]
    · by_cases hg : g2 = g
      · subst hg
        simp [enqueue_member, hm, List.nodup_append, hn]
      · simp [enqueue_member, hm, hg, hn]
  · intro hn
    cases hq : st.guild_queues g with
    | nil => simp [process_one, hq, hn]
    | cons hd tl =>
        by_cases hg : g2 = g
        · subst hg
          rw [hq] at hn
          cases hstat : status hd <;>
            simp [process_one, hq, hstat, hn.of_cons]
        · cases hstat : status hd <;> simp [process_one, hq, hstat, hg, hn]

end ConQueso.SortingHat

namespace ConQueso.ActivityTracker

/-! ### ActivityTracker lemmas -/

theorem ruleSortLE_total (a b : PolicingRule) :
    (ruleSortLE a b || ruleSortLE b a) = true := by
  simp only [ruleSortLE, Bool.or_eq_true, decide_eq_true_eq]
  omega

theorem ruleSortLE_trans (a b c : PolicingRule) :
    ruleSortLE a b = true → ruleSortLE b c = true → ruleSortLE a c = true := by
  simp only [ruleSortLE, decide_eq_true_eq]
  omega

/-- In a list sorted (as Pairwise) for a total Bool comparator, the first
element satisfying a predicate is `le`-below every satisfying element. -/
theorem find?_pairwise_le {α : Type} {le : α → α → Bool}
    (htot : ∀ a b, (le a b || le b a) = true) {p : α → Bool} :
    ∀ {l : List α}, l.Pairwise (fun a b => le a b = true) →
      ∀ {r : α}, l.find? p = some r → ∀ x ∈ l, p x = true →
        le r x = true := by
  intro l
  induction l with
  | nil => intro _ r hf; simp at hf
  | cons a t ih =>
      intro hp r hf x hx hpx
      rw [List.find?_cons] at hf
      cases hpa : p a
      case false =>
        rw [hpa] at hf
        simp only [] at hf
        rcases List.mem_cons.mp hx with rfl | hx2
        · rw [hpa] at hpx
          exact absurd hpx (by simp)
        · exact ih (List.Pairwise.of_cons hp) hf x hx2 hpx
      case true =>
        rw [hpa] at hf
        simp only [Option.some.injEq] at hf
        subst hf
        rcases List.mem_cons.mp hx with rfl | hx2
        · simpa using htot x x
        · exact (List.pairwise_cons.mp hp).1 x hx2

/-- Claim C3: _get_applicable_rule is a pure threshold comparison. It
returns none exactly when no rule passes both the level cap and the days
threshold; otherwise it returns a satisfying rule with the greatest days
requirement, ties broken towards the smallest level cap. -/
theorem activitytracker_rule_eval (rules : List PolicingRule)
    (user_level : Int) (days_inactive : ℚ) :
    (get_applicable_rule rules user_level days_inactive = none ↔
      ∀ r ∈ rules, ¬(user_level ≤ r.level ∧ (r.days : ℚ) ≤ days_inactive)) ∧
    ∀ r, get_applicable_rule rules user_level days_inactive = some r →
      r ∈ rules ∧ user_level ≤ r.level ∧ (r.days : ℚ) ≤ days_inactive ∧
        ∀ r2 ∈ rules, user_level ≤ r2.level →
          (r2.days : ℚ) ≤ days_inactive →
            r2.days ≤ r.days ∧ (r2.days = r.days → r.level ≤ r2.level) := by
  have hmemApp : ∀ r : PolicingRule,
      r ∈ (rules.filter fun r => decide (user_level ≤ r.level)) ↔
        r ∈ rules ∧ user_level ≤ r.level := by
    intro r
    simp [List.mem_filter]
  have hmemSort : ∀ r : PolicingRule,
      r ∈ (rules.filter fun r =>
            decide (user_level ≤ r.level)).mergeSort ruleSortLE ↔
        r ∈ rules ∧ user_level ≤ r.level := by
    intro r
    rw [(List.mergeSort_perm _ ruleSortLE).mem_iff]
    exact hmemApp r
  have hG : get_applicable_rule rules user_level days_inactive =
      if (rules.filter fun r => decide (user_level ≤ r.level)).isEmpty then
        none
      else
        ((rules.filter fun r =>
            decide (user_level ≤ r.level)).mergeSort ruleSortLE).find?
          fun r => decide ((r.days : ℚ) ≤ days_inactive) := rfl
  constructor
  · rw [hG]
    by_cases hemp :
        (rules.filter fun r => decide (user_level ≤ r.level)).isEmpty = true
    · rw [if_pos hemp]
      have hnil : (rules.filter fun r => decide (user_level ≤ r.level)) =
          [] := by
        simpa using hemp
      constructor
      · intro _ r hr hcond
        have hm : r ∈ (rules.filter fun r => decide (user_level ≤ r.level)) :=
          (hmemApp r).mpr ⟨hr, hcond.1⟩
        rw [hnil] at hm
        simp at hm
      · intro _
        rfl
    · rw [if_neg hemp, List.find?_eq_none]
      constructor
      · intro h r hr hcond
        exact (h r ((hmemSort r).mpr ⟨hr, hcond.1⟩)) (by simpa using hcond.2)
      · intro h x hx
        obtain ⟨hxr, hxl⟩ := (hmemSort x).mp hx
        intro hpx
        exact h x hxr ⟨hxl, by simpa using hpx⟩
  · intro r hfind
    rw [hG] at hfind
    by_cases hemp :
        (rules.filter fun r => decide (user_level ≤ r.level)).isEmpty = true
    · rw [if_pos hemp] at hfind
      exact absurd hfind (by simp)
    · rw [if_neg hemp] at hfind
      have hmem := List.mem_of_find?_eq_some hfind
      obtain ⟨hrr, hrl⟩ := (hmemSort r).mp hmem
      have hrd : (r.days : ℚ) ≤ days_inactive := by
        simpa using List.find?_some hfind
      refine ⟨hrr, hrl, hrd, ?_⟩
      intro r2 hr2 hl2 hd2
      have hsorted := @List.sorted_mergeSort PolicingRule ruleSortLE
        ruleSortLE_trans ruleSortLE_total
        (rules.filter fun r => decide (user_level ≤ r.level))
      have hle := find?_pairwise_le ruleSortLE_total hsorted hfind r2
        ((hmemSort r2).mpr ⟨hr2, hl2⟩) (by simpa using hd2)
      simp only [ruleSortLE, decide_eq_true_eq] at hle
      exact ⟨by omega, fun heq => by omega⟩

/-- Claim C4: for a qualifying guild message, on_message appends the
current timestamp to the message history, keeps exactly the entries
inside the msg_window_hours window, and sets last_active to now if and
only if at least msg_threshold entries remain. -/
theorem activitytracker_on_message (conf : GuildConf)
    (ps : List (List Char)) (msg : Message) (now : ℚ) (st : MemberState)
    (hg : msg.guild.isSome = true) (hb : msg.author_bot = false)
    (hch : msg.channel_id ∉ conf.ignored_channels)
    (hcmd : (conf.ignore_commands && startsWithAny msg.content ps) = false)
    (hlen : conf.min_chars ≤ (msg.content.length : Int))
    (hemoji : is_emoji_only msg.content = false) :
    (on_message conf ps msg now st).message_history =
      (st.message_history ++ [now]).filter
        (fun t => decide (now - (conf.msg_window_hours : ℚ) * 3600 < t)) ∧
    (conf.msg_threshold ≤
        ((on_message conf ps msg now st).message_history.length : Int) →
      (on_message conf ps msg now st).last_active = some now) ∧
    (((on_message conf ps msg now st).message_history.length : Int) <
        conf.msg_threshold →
      (on_message conf ps msg now st).last_active = st.last_active) := by
  have hgn : msg.guild.isNone = false := by
    cases h : msg.guild
    · rw [h] at hg
      simp at hg
    · simp
  have hR : on_message conf ps msg now st =
      { st with
        message_history :=
          (st.message_history ++ [now]).filter
            (fun t => decide (now - (conf.msg_window_hours : ℚ) * 3600 < t)),
        last_active :=
          if conf.msg_threshold ≤
              (((st.message_history ++ [now]).filter
                (fun t =>
                  decide (now - (conf.msg_window_hours : ℚ) * 3600
                    < t))).length : Int) then
            some now
          else st.last_active } := by
    rw [on_message]
    rw [hgn, hb, hcmd]
    rw [if_neg (by simp)]
    rw [if_neg hch]
    rw [if_neg (by simp)]
    rw [if_neg (by simpa using not_lt.mpr hlen)]
    rw [if_neg (by simp [hemoji])]
  rw [hR]
  dsimp only
  refine ⟨rfl, ?_, ?_⟩
  · intro h
    rw [if_pos h]
  · intro h
    rw [if_neg (not_le.mpr h)]

/-- Witness for C4 at a concrete qualifying message: the stale entry at
time 50 is discarded, the new entry is kept, and with only one entry
below the threshold of 2 the last_active timestamp is unchanged. -/
theorem activitytracker_on_message_witness :
    (on_message confW marksW msgW 400000 stW).message_history =
      (stW.message_history ++ [400000]).filter
        (fun t =>
          decide ((400000 : ℚ) - (confW.msg_window_hours : ℚ) * 3600
            < t)) ∧
    (confW.msg_threshold ≤
        ((on_message confW marksW msgW 400000 stW).message_history.length :
          Int) →
      (on_message confW marksW msgW 400000 stW).last_active =
        some 400000) ∧
    (((on_message confW marksW msgW 400000 stW).message_history.length :
        Int) < confW.msg_threshold →
      (on_message confW marksW msgW 400000 stW).last_active =
        stW.last_active) :=
  activitytracker_on_message confW marksW msgW 400000 stW (by decide)
    (by decide) (by decide) (by decide) (by decide) (by decide)

theorem police_member_preview (conf : GuildConf) (now : ℚ)
    (acc : PolicingOutcome) (m : GuildMember)
    (hp : conf.preview_mode = true) :
    (police_member conf now acc m).actions = acc.actions ∧
    (police_member conf now acc m).policed_updates = acc.policed_updates := by
  rw [police_member]
  split
  · exact ⟨rfl, rfl⟩
  · cases hr : get_applicable_rule conf.policing_rules m.level
        ((now - effective_last_active m) / 86400) with
    | none => exact ⟨rfl, rfl⟩
    | some rule =>
        simp only [hp]
        split
        · exact ⟨rfl, rfl⟩
        · exact ⟨rfl, rfl⟩

/-- Claim C8: whenever preview_mode is on, a run_policing pass over a
guild executes no policing action and sets no member's last_policed
timestamp, whether it runs automatically or from a manual report
context; it can only accumulate report entries. -/
theorem activitytracker_preview_no_actions (conf : GuildConf)
    (members : List GuildMember) (now : ℚ) (manual rce : Bool)
    (hp : conf.preview_mode = true) :
    (run_policing_guild conf members now manual rce).actions = [] ∧
    (run_policing_guild conf members now manual rce).policed_updates =
      [] := by
  have key : ∀ (ms : List GuildMember) (acc : PolicingOutcome),
      (ms.foldl (police_member conf now) acc).actions = acc.actions ∧
      (ms.foldl (police_member conf now) acc).policed_updates =
        acc.policed_updates := by
    intro ms
    induction ms with
    | nil => intro acc; exact ⟨rfl, rfl⟩
    | cons m ms ih =>
        intro acc
        rw [List.foldl_cons]
        obtain ⟨h1, h2⟩ := ih (police_member conf now acc m)
        obtain ⟨h3, h4⟩ := police_member_preview conf now acc m hp
        exact ⟨h1.trans h3, h2.trans h4⟩
  rw [run_policing_guild]
  split
  · exact ⟨rfl, rfl⟩
  · split
    · exact ⟨rfl, rfl⟩
    · obtain ⟨h1, h2⟩ := key members emptyOutcome
      exact ⟨h1, h2⟩

/-- Witness for C8: a manual preview run over one member who does match a
warn rule produces no action and no last_policed update. -/
theorem activitytracker_preview_no_actions_witness :
    (run_policing_guild confP [memW] 5184000 true true).actions = [] ∧
    (run_policing_guild confP [memW] 5184000 true true).policed_updates =
      [] :=
  activitytracker_preview_no_actions confP [memW] 5184000 true true
    (by decide)

end ConQueso.ActivityTracker

namespace ConQueso.LowEngagement

/-! ### LowEngagement claim theorem -/

/-- Claim C5: for a non-exempt member (cog enabled, not a bot, not
hibernating, no ignored role, channel not ignored, level not above
max_level_ignored unless that is -1), a non-emoji-only message resets the
streak to 0; an emoji-only message sets the streak to 1 when more than
time_window_days days passed since the previous emoji-only message and to
the previous streak plus one otherwise, records the message time, and
when that streak reaches emoji_streak_limit the warning is triggered and
the streak is reset to 0. -/
theorem lowengagement_on_message (conf : GuildConf) (msg : Message)
    (now : ℚ) (st : MemberState)
    (hb : msg.author_bot = false) (hg : msg.guild.isSome = true)
    (he : conf.enabled = true) (hh : msg.author_hibernating = false)
    (hrole :
      msg.author_roles.any (fun r => conf.ignored_roles.contains r) = false)
    (hch : msg.channel_id ∉ conf.ignored_channels)
    (hlvl : ¬(conf.max_level_ignored < msg.author_level ∧
      conf.max_level_ignored ≠ -1)) :
    (is_emoji_only msg.content = false →
      on_message conf msg now st = ({ st with streak := 0 }, false)) ∧
    (is_emoji_only msg.content = true →
      ∀ s1 : Nat,
        s1 = (if (conf.time_window_days : ℚ) * 86400 < now - st.last_emoji_ts
          then 1 else st.streak + 1) →
        (conf.emoji_streak_limit ≤ s1 →
          on_message conf msg now st =
            ({ st with streak := 0, last_emoji_ts := now }, true)) ∧
        (s1 < conf.emoji_streak_limit →
          on_message conf msg now st =
            ({ st with streak := s1, last_emoji_ts := now }, false))) := by
  have hgn : msg.guild.isNone = false := by
    cases h : msg.guild
    · rw [h] at hg
      simp at hg
    · simp
  have hcore : on_message conf msg now st =
      (if !is_emoji_only msg.content then ({ st with streak := 0 }, false)
       else
        let streak1 :=
          if (conf.time_window_days : ℚ) * 86400 < now - st.last_emoji_ts
          then 1 else st.streak + 1
        if conf.emoji_streak_limit ≤ streak1 then
          ({ st with streak := 0, last_emoji_ts := now }, true)
        else ({ st with streak := streak1, last_emoji_ts := now }, false)) := by
    rw [on_message]
    rw [hb, hgn, he, hh, hrole]
    rw [if_neg (by simp)]
    rw [if_neg (by simp)]
    rw [if_neg (by simp)]
    rw [if_neg (by simp)]
    rw [if_neg (by simp)]
    rw [if_neg hch]
    rw [if_neg hlvl]
  constructor
  · intro hem
    rw [hcore, if_pos (by simp [hem])]
  · intro hem s1 hs1
    rw [hcore, if_neg (by simp [hem])]
    subst hs1
    constructor
    · intro hlim
      rw [if_pos hlim]
    · intro hlim
      rw [if_neg (not_le.mpr hlim)]

/-- Witness for C5: a non-exempt member with a running streak of 1 sends
an emoji-only message inside the time window; the streak becomes 2, below
the limit of 5, so no warning is triggered. -/
theorem lowengagement_on_message_witness :
    (is_emoji_only msgL.content = false →
      on_message confL msgL 50000 stL = ({ stL with streak := 0 }, false)) ∧
    (is_emoji_only msgL.content = true →
      ∀ s1 : Nat,
        s1 = (if (confL.time_window_days : ℚ) * 86400
            < 50000 - stL.last_emoji_ts then 1 else stL.streak + 1) →
        (confL.emoji_streak_limit ≤ s1 →
          on_message confL msgL 50000 stL =
            ({ stL with streak := 0, last_emoji_ts := 50000 }, true)) ∧
        (s1 < confL.emoji_streak_limit →
          on_message confL msgL 50000 stL =
            ({ stL with streak := s1, last_emoji_ts := 50000 }, false))) :=
  lowengagement_on_message confL msgL 50000 stL (by decide) (by decide)
    (by decide) (by decide) (by decide) (by decide) (by decide)

end ConQueso.LowEngagement

namespace ConQueso.AdvancedRoleRewards

/-! ### AdvancedRoleRewards lemmas and claim theorems -/

theorem foldl_days_reward_step (role_exists : Nat → Bool)
    (member_roles : List Nat) (days : Int) :
    ∀ (rewards : List DaysReward) (acc : List Nat × List Nat),
      rewards.foldl (days_reward_step role_exists member_roles days) acc =
        (acc.1 ++
          ((rewards.filter fun r =>
            role_exists r.role_id && decide (r.days ≤ days) &&
              !(member_roles.contains r.role_id)).map fun r => r.role_id),
          acc.2) := by
  intro rewards
  induction rewards with
  | nil => intro acc; simp
  | cons r rest ih =>
      intro acc
      rw [List.foldl_cons, ih]
      by_cases h1 : role_exists r.role_id = true
      · by_cases h2 : r.days ≤ days
        · by_cases h3 : r.role_id ∈ member_roles
          · simp [days_reward_step, h1, h2, h3]
          · simp [days_reward_step, h1, h2, h3]
        · simp [days_reward_step, h1, h2]
      · simp only [Bool.not_eq_true] at h1
        simp [days_reward_step, h1]

/-- Claim C6 counterexample: the claim computes tenure from the stored
start_date whenever it is set, but a stored (falsy) timestamp 0.0 makes
the code fall back to the join date. A member with start_date 0.0 who
joined right now (time 1728000) has claim-tenure 20 days but code-tenure
0, so a 5-day reward role (id 7) the claim grants is not queued for
adding. -/
theorem advancedrolerewards_tenure_counterexample :
    (process_days_rewards [{ days := 5, role_id := 7 }] (fun _ => true) []
        (get_tenure_days (some 0) (some 1728000) 1728000)).1 = [] ∧
    5 ≤ claim_tenure_days (some 0) (some 1728000) 1728000 ∧
    get_tenure_days (some 0) (some 1728000) 1728000 = 0 := by
  have h1 : get_tenure_days (some 0) (some 1728000) 1728000 = 0 := by
    rw [get_tenure_days, tenure_start]
    norm_num
  have h2 : claim_tenure_days (some 0) (some 1728000) 1728000 = 20 := by
    rw [claim_tenure_days]
    norm_num
  refine ⟨?_, by rw [h2]; norm_num, h1⟩
  rw [h1, process_days_rewards, foldl_days_reward_step]
  norm_num

/-- Claim C6 (amended): during a processing pass, a days-based reward
role is queued for adding exactly when the role still exists, the
member's tenure in whole days meets the rule's days threshold, and the
member does not already have the role; days-based reward processing never
queues a removal; tenure is computed from the stored start_date timestamp
when it is set and non-zero (Python's falsy 0.0 falls back like None),
otherwise from the join date, and is never negative. -/
theorem advancedrolerewards_days_rewards (rewards : List DaysReward)
    (role_exists : Nat → Bool) (member_roles : List Nat)
    (start_date joined_at : Option ℚ) (now : ℚ) :
    (∀ rid : Nat,
      rid ∈ (process_days_rewards rewards role_exists member_roles
          (get_tenure_days start_date joined_at now)).1 ↔
        ∃ r ∈ rewards, r.role_id = rid ∧ role_exists rid = true ∧
          r.days ≤ get_tenure_days start_date joined_at now ∧
          rid ∉ member_roles) ∧
    (process_days_rewards rewards role_exists member_roles
        (get_tenure_days start_date joined_at now)).2 = [] ∧
    0 ≤ get_tenure_days start_date joined_at now := by
  refine ⟨?_, ?_, ?_⟩
  · intro rid
    rw [process_days_rewards, foldl_days_reward_step]
    have hcond : ∀ r : DaysReward,
        (role_exists r.role_id &&
            decide (r.days ≤ get_tenure_days start_date joined_at now) &&
            !(member_roles.contains r.role_id)) = true ↔
          role_exists r.role_id = true ∧
            r.days ≤ get_tenure_days start_date joined_at now ∧
            r.role_id ∉ member_roles := by
      intro r
      simp [and_assoc]
    simp only [List.nil_append, List.mem_map, List.mem_filter]
    constructor
    · rintro ⟨r, ⟨hr, hc⟩, rfl⟩
      obtain ⟨h1, h2, h3⟩ := (hcond r).mp hc
      exact ⟨r, hr, rfl, h1, h2, h3⟩
    · rintro ⟨r, hr, rfl, h1, h2, h3⟩
      exact ⟨r, ⟨hr, (hcond r).mpr ⟨h1, h2, h3⟩⟩, rfl⟩
  · rw [process_days_rewards, foldl_days_reward_step]
  · rw [get_tenure_days]
    cases tenure_start start_date joined_at
    · simp
    · simp

end ConQueso.AdvancedRoleRewards

namespace ConQueso.Shun

/-! ### Shun dict lemmas -/

theorem dictGet_del_self {β : Type} (m : List (Nat × β)) (k : Nat) :
    dictGet (dictDel m k) k = none := by
  induction m with
  | nil => rfl
  | cons p t ih =>
      by_cases hp : p.1 = k <;> simp [dictGet, dictDel, hp, ih]

theorem dictGet_del_ne {β : Type} (m : List (Nat × β)) (k k2 : Nat)
    (h : k2 ≠ k) : dictGet (dictDel m k) k2 = dictGet m k2 := by
  have hkk : k ≠ k2 := fun he => h he.symm
  induction m with
  | nil => rfl
  | cons p t ih =>
      by_cases hp : p.1 = k
      · simp [dictGet, dictDel, hp, hkk, ih]
      · by_cases hp2 : p.1 = k2 <;>
          simp [dictGet, dictDel, hp, hp2, h, ih]

theorem dictGet_upd_self {β : Type} (m : List (Nat × β)) (k : Nat) (v : β) :
    dictGet (dictUpd m k v) k = (dictGet m k).map fun _ => v := by
  induction m with
  | nil => rfl
  | cons p t ih =>
      by_cases hp : p.1 = k <;> simp [dictGet, dictUpd, hp, ih]

theorem dictGet_upd_ne {β : Type} (m : List (Nat × β)) (k k2 : Nat) (v : β)
    (h : k2 ≠ k) : dictGet (dictUpd m k v) k2 = dictGet m k2 := by
  have hkk : k ≠ k2 := fun he => h he.symm
  induction m with
  | nil => rfl
  | cons p t ih =>
      by_cases hp : p.1 = k
      · simp [dictGet, dictUpd, hp, hkk, ih]
      · by_cases hp2 : p.1 = k2 <;>
          simp [dictGet, dictUpd, hp, hp2, h, ih]

theorem dictDel_eq_nil_iff {β : Type} (m : List (Nat × β)) (k : Nat) :
    dictDel m k = [] ↔ ∀ p ∈ m, p.1 = k := by
  induction m with
  | nil => simp [dictDel]
  | cons p t ih =>
      by_cases hp : p.1 = k <;> simp [dictDel, hp, ih]

theorem dictGet_eq_none_of_all {β : Type} (m : List (Nat × β)) (k a : Nat)
    (hall : ∀ p ∈ m, p.1 = k) (h : a ≠ k) : dictGet m a = none := by
  induction m with
  | nil => rfl
  | cons p t ih =>
      have hp : p.1 = k := hall p (by simp)
      have : p.1 ≠ a := by omega
      simp only [dictGet, if_neg this]
      exact ih fun q hq => hall q (by simp [hq])

theorem mem_dictDel {β : Type} (m : List (Nat × β)) (k : Nat)
    (p : Nat × β) (hp : p ∈ dictDel m k) : p ∈ m ∧ p.1 ≠ k := by
  induction m with
  | nil => simp [dictDel] at hp
  | cons q t ih =>
      by_cases hq : q.1 = k
      · rw [dictDel, if_pos hq] at hp
        obtain ⟨h1, h2⟩ := ih hp
        exact ⟨by simp [h1], h2⟩
      · rw [dictDel, if_neg hq] at hp
        rcases List.mem_cons.mp hp with rfl | hp2
        · exact ⟨by simp, hq⟩
        · obtain ⟨h1, h2⟩ := ih hp2
          exact ⟨by simp [h1], h2⟩

theorem dictGet_ne_none_of_mem {β : Type} (m : List (Nat × β))
    (p : Nat × β) (hp : p ∈ m) : dictGet m p.1 ≠ none := by
  induction m with
  | nil => simp at hp
  | cons q t ih =>
      by_cases hq : q.1 = p.1
      · simp [dictGet, hq]
      · rcases List.mem_cons.mp hp with rfl | hp2
        · exact absurd rfl hq
        · simp only [dictGet, if_neg hq]
          exact ih hp2

/-! ### Shun claim theorem -/

/-- Claim C10: unshun fails (with the error reply) exactly when the
invoking author has no recorded shun on the target, and then leaves the
guild's shuns dict unchanged; on success it removes exactly the author's
entry for that target, leaves every other target's and shunner's entry
unchanged, and the target's key remains present exactly when some other
shunner still has an entry on the target. -/
theorem shun_unshun (shuns : List (Nat × List (Nat × ℚ)))
    (author target : Nat) :
    ((unshun shuns author target).success = false ↔
      lookup_shun shuns target author = none) ∧
    ((unshun shuns author target).success = false →
      (unshun shuns author target).shuns = shuns) ∧
    ((unshun shuns author target).success = true →
      (∀ t a, lookup_shun (unshun shuns author target).shuns t a =
        if t = target ∧ a = author then none
        else lookup_shun shuns t a) ∧
      (dictGet (unshun shuns author target).shuns target = none ↔
        ∀ a2, a2 ≠ author → lookup_shun shuns target a2 = none)) := by
  cases hT : dictGet shuns target with
  | none =>
      have hU : unshun shuns author target = ⟨false, shuns, none⟩ := by
        rw [unshun, hT]
      rw [hU]
      refine ⟨?_, fun _ => rfl, ?_⟩
      · simp [lookup_shun, hT]
      · intro h
        exact absurd h (by simp)
  | some inner =>
      cases hA : dictGet inner author with
      | none =>
          have hU : unshun shuns author target = ⟨false, shuns, none⟩ := by
            rw [unshun]
            simp only [hT, hA]
          rw [hU]
          refine ⟨?_, fun _ => rfl, ?_⟩
          · simp [lookup_shun, hT, hA]
          · intro h
            exact absurd h (by simp)
      | some ts =>
          have hU : unshun shuns author target =
              ⟨true,
                if (dictDel inner author).isEmpty then dictDel shuns target
                else dictUpd shuns target (dictDel inner author),
                some ts⟩ := by
            rw [unshun]
            simp only [hT, hA]
          rw [hU]
          refine ⟨?_, ?_, ?_⟩
          · simp [lookup_shun, hT, hA]
          · intro h
            exact absurd h (by simp)
          · intro _
            constructor
            · intro t a
              by_cases hE : (dictDel inner author).isEmpty = true
              · rw [if_pos hE]
                have hnil : dictDel inner author = [] := by simpa using hE
                have hall : ∀ p ∈ inner, p.1 = author :=
                  (dictDel_eq_nil_iff inner author).mp hnil
                by_cases ht : t = target
                · subst ht
                  rw [lookup_shun, dictGet_del_self]
                  by_cases ha : a = author
                  · subst ha
                    simp
                  · rw [if_neg (by tauto)]
                    rw [lookup_shun, hT]
                    simp only [Option.none_bind, Option.some_bind]
                    exact (dictGet_eq_none_of_all inner author a hall
                      ha).symm
                · rw [if_neg (by tauto)]
                  rw [lookup_shun, lookup_shun, dictGet_del_ne _ _ _ ht]
              · rw [if_neg hE]
                by_cases ht : t = target
                · subst ht
                  rw [lookup_shun, dictGet_upd_self, hT]
                  simp only [Option.map_some', Option.some_bind]
                  by_cases ha : a = author
                  · subst ha
                    rw [dictGet_del_self]
                    simp
                  · rw [if_neg (by tauto), dictGet_del_ne _ _ _ ha,
                      lookup_shun, hT]
                    simp only [Option.some_bind]
                · rw [if_neg (by tauto)]
                  rw [lookup_shun, lookup_shun, dictGet_upd_ne _ _ _ _ ht]
            · by_cases hE : (dictDel inner author).isEmpty = true
              · rw [if_pos hE]
                have hnil : dictDel inner author = [] := by simpa using hE
                have hall : ∀ p ∈ inner, p.1 = author :=
                  (dictDel_eq_nil_iff inner author).mp hnil
                constructor
                · intro _ a2 ha2
                  rw [lookup_shun, hT]
                  simp only [Option.some_bind]
                  exact dictGet_eq_none_of_all inner author a2 hall ha2
                · intro _
                  exact dictGet_del_self shuns target
              · rw [if_neg hE]
                have hne : dictDel inner author ≠ [] := by simpa using hE
                obtain ⟨p, hp⟩ := List.exists_mem_of_ne_nil _ hne
                obtain ⟨hpin, hpk⟩ := mem_dictDel inner author p hp
                constructor
                · intro h
                  rw [dictGet_upd_self, hT] at h
                  simp at h
                · intro h
                  exfalso
                  have h2 := h p.1 hpk
                  rw [lookup_shun, hT] at h2
                  simp only [Option.some_bind] at h2
                  exact dictGet_ne_none_of_mem inner p hpin h2

end ConQueso.Shun
